import Mathlib

set_option maxRecDepth 8000

/-!
Shallow embedding of the AthenaDialect adapter from
pyathenajdbc/sqlalchemy_athena.py.

Strings are modelled as List Char.  Python string methods (upper, lower,
strip, split, endswith, the in operator) and the two regular expressions of
the source are modelled at the ASCII level, which covers every input
considered here.  Fetched result rows are modelled by the list of their
first fields, since get_columns only reads r[0] of each row.
-/

/-- The SQLAlchemy type descriptors imported by the source from
sqlalchemy.sql.sqltypes: BIGINT, BINARY, BOOLEAN, DATE, DECIMAL, FLOAT,
INTEGER, NULLTYPE, STRINGTYPE, TIMESTAMP. -/
inductive TypeDescriptor : Type
  | BIGINT
  | BINARY
  | BOOLEAN
  | DATE
  | DECIMAL
  | FLOAT
  | INTEGER
  | NULLTYPE
  | STRINGTYPE
  | TIMESTAMP
deriving DecidableEq

/-- ASCII whitespace: the characters of the regex whitespace class and of
Python str.strip at the ASCII level. -/
def isSpaceChar (c : Char) : Bool :=
  c == ' ' || c == '\t' || c == '\n' || c == '\r' || c == '\x0b' || c == '\x0c'

/-- One character of Python str.upper, ASCII level. -/
def pyUpperChar (c : Char) : Char :=
  if 97 ≤ c.toNat ∧ c.toNat ≤ 122 then Char.ofNat (c.toNat - 32) else c

/-- One character of Python str.lower, ASCII level. -/
def pyLowerChar (c : Char) : Char :=
  if 65 ≤ c.toNat ∧ c.toNat ≤ 90 then Char.ofNat (c.toNat + 32) else c

/-- Whether a character is an ASCII lowercase letter. -/
def isLowerAscii (c : Char) : Bool := decide (97 ≤ c.toNat ∧ c.toNat ≤ 122)

/-- Python str.strip: remove leading and trailing whitespace. -/
def pyStrip (s : List Char) : List Char :=
  ((s.dropWhile isSpaceChar).reverse.dropWhile isSpaceChar).reverse

/-- If pre is a leading segment of s, return the remaining characters of s,
otherwise none. -/
def stripPre : List Char → List Char → Option (List Char)
  | [], s => some s
  | _ :: _, [] => none
  | p :: ps, c :: cs => if c = p then stripPre ps cs else none

/-- The leftmost occurrence of sep inside s: returns the text before it and
the text after it, or none when sep does not occur in s. -/
def splitFirst (sep : List Char) : List Char → Option (List Char × List Char)
  | [] => none
  | c :: rest =>
    match stripPre sep (c :: rest) with
    | some tail => some ([], tail)
    | none => (splitFirst sep rest).map (fun pq => (c :: pq.1, pq.2))

/-- The Python in operator on strings: sep occurs somewhere inside s. -/
def hasSub (sep s : List Char) : Bool := (splitFirst sep s).isSome

/-- Python str.split with a non-empty separator, scanning left to right.
The first argument is fuel; it is always called with the length of the
string, which bounds the number of recursion steps. -/
def pySplitGo (sep : List Char) : Nat → List Char → List Char → List (List Char)
  | 0, s, acc => [acc.reverse ++ s]
  | fuel + 1, s, acc =>
    match s with
    | [] => [acc.reverse]
    | c :: rest =>
      match stripPre sep (c :: rest) with
      | some tail => acc.reverse :: pySplitGo sep fuel tail []
      | none => pySplitGo sep fuel rest (c :: acc)

/-- Python str.split with a non-empty separator. -/
def pySplit (sep s : List Char) : List (List Char) := pySplitGo sep s.length s []

/-- The separator literal COMMENT used by row.split in get_columns. -/
def commentSep : List Char := "COMMENT".toList

/-- The punctuation handling of get_columns: after upper and strip, one
trailing comma or closing parenthesis is removed from the row. -/
def stripTrailPunct (s : List Char) : List Char :=
  match s.getLast? with
  | some c => if c = ',' ∨ c = ')' then s.dropLast else s
  | none => s

/-- The row normalisation of get_columns applied to one fetched line:
r[0].upper().strip() followed by the trailing punctuation removal. -/
def processedRow (raw : List Char) : List Char :=
  stripTrailPunct (pyStrip (raw.map pyUpperChar))

/-- The COMMENT block of get_columns.  When the substring COMMENT occurs in
the row, the row is split on it; the row becomes element 0 of the split and
the comment becomes element -1 of the split (Python negative indexing, the
final element); otherwise the comment stays None. -/
def commentedRow (row : List Char) : List Char × Option (List Char) :=
  if hasSub commentSep row then
    ((pySplit commentSep row).headD [], some ((pySplit commentSep row).getLastD []))
  else (row, none)

/-- The backtick character, written by code point to keep source lines free
of bare backticks. -/
def backtickChar : Char := Char.ofNat 96

/-- First successful result of f over a list of candidates, in order. -/
def firstSome {α β : Type} (f : α → Option β) : List α → Option β
  | [] => none
  | a :: l =>
    match f a with
    | some b => some b
    | none => firstSome f l

/-- The tail of the column regex after the closing backtick: at least one
whitespace character, then group 2, one or more characters other than
newline, taken greedily.  Whitespace is consumed greedily and backtracks,
exactly as the Python engine does, so candidates for the whitespace length
are tried from longest to shortest. -/
def matchSpTy (r : List Char) : Option (List Char) :=
  firstSome (fun i =>
      match (r.drop i).takeWhile (fun c => c != '\n') with
      | [] => none
      | g2 => some g2)
    ((List.range' 1 (r.takeWhile isSpaceChar).length).reverse)

/-- Candidate lengths for group 1 of the column regex, longest first:
group 1 is a greedy run of characters other than newline that must be
followed by a closing backtick. -/
def candidateKs (rest : List Char) : List Nat :=
  ((List.range (rest.takeWhile (fun c => c != '\n')).length).filter
      (fun k => decide (1 ≤ k) && ((rest.drop k).head? == some backtickChar))).reverse

/-- Matching of the column regex directly after an opening backtick. -/
def matchG1 (rest : List Char) : Option (List Char × List Char) :=
  firstSome (fun k =>
      (matchSpTy (rest.drop (k + 1))).map (fun g2 => (rest.take k, g2)))
    (candidateKs rest)

/-- re.search of the column pattern of get_columns: a backtick, group 1 (one
or more characters other than newline, greedy), a backtick, whitespace,
group 2 (one or more characters other than newline, greedy), optional
trailing whitespace.  The search returns the groups of the leftmost match. -/
def reSearchCols : List Char → Option (List Char × List Char)
  | [] => none
  | c :: rest =>
    if c = backtickChar then
      match matchG1 rest with
      | some r => some r
      | none => reSearchCols rest
    else reSearchCols rest

/-- The groups of the regex match m computed by get_columns for one fetched
line, after normalisation and comment splitting. -/
def parsedGroups (raw : List Char) : Option (List Char × List Char) :=
  reSearchCols (commentedRow (processedRow raw)).1

/-- The static type mapping table of the source, in source order. -/
def _TYPE_MAPPINGS : List (List Char × TypeDescriptor) := [
  ("DOUBLE".toList, TypeDescriptor.FLOAT),
  ("SMALLINT".toList, TypeDescriptor.INTEGER),
  ("BOOLEAN".toList, TypeDescriptor.BOOLEAN),
  ("INTEGER".toList, TypeDescriptor.INTEGER),
  ("VARCHAR".toList, TypeDescriptor.STRINGTYPE),
  ("TINYINT".toList, TypeDescriptor.INTEGER),
  ("DECIMAL".toList, TypeDescriptor.DECIMAL),
  ("ARRAY".toList, TypeDescriptor.STRINGTYPE),
  ("ROW".toList, TypeDescriptor.STRINGTYPE),
  ("VARBINARY".toList, TypeDescriptor.BINARY),
  ("MAP".toList, TypeDescriptor.STRINGTYPE),
  ("BIGINT".toList, TypeDescriptor.BIGINT),
  ("DATE".toList, TypeDescriptor.DATE),
  ("TIMESTAMP".toList, TypeDescriptor.TIMESTAMP),
  ("STRING".toList, TypeDescriptor.STRINGTYPE)]

/-- Python dict.get with a default, over an association list with distinct
keys (dict literals in the source have distinct keys). -/
def dictGetD {V : Type} : List (List Char × V) → List Char → V → V
  | [], _, d => d
  | (k0, v0) :: rest, k, d => if k0 = k then v0 else dictGetD rest k d

/-- The per-line parse of get_columns: name (group 1 lowered, then lowered
again when stored), mapped type (_TYPE_MAPPINGS.get of group 2 with NULLTYPE
as the default), and the optional comment.  Returns none when the regex does
not match, in which case the source line is skipped by continue.  The
debugging print of group 2 in the source has no effect on the value. -/
def parseShowCreateLine (raw : List Char) :
    Option (List Char × TypeDescriptor × Option (List Char)) :=
  match parsedGroups raw with
  | none => none
  | some (g1, g2) =>
    some ((g1.map pyLowerChar).map pyLowerChar,
      dictGetD _TYPE_MAPPINGS g2 TypeDescriptor.NULLTYPE,
      (commentedRow (processedRow raw)).2)

/-- One reflected column dict appended by get_columns.  nullable and default
are always None in the source. -/
structure ColumnRecord where
  name : List Char
  type : TypeDescriptor
  ordinal_position : Nat
  comment : Option (List Char)
  nullable : Option Bool
  default : Option (List Char)
deriving DecidableEq

/-- The loop of get_columns over the fetched lines, carrying the ordinal
counter, which starts at 0 and is incremented before each append. -/
def getColumnsGo : List (List Char) → Nat → List ColumnRecord
  | [], _ => []
  | raw :: rest, ordinal =>
    match parseShowCreateLine raw with
    | none => getColumnsGo rest ordinal
    | some (nm, ty, cm) =>
      ⟨nm, ty, ordinal + 1, cm, none, none⟩ :: getColumnsGo rest (ordinal + 1)

/-- get_columns on the fetched SHOW CREATE TABLE lines.  Issuing the query
and fetching belong to the external connection contract; the embedding takes
the fetched lines directly. -/
def get_columns (lines : List (List Char)) : List ColumnRecord :=
  getColumnsGo lines 0

/-- The model of a parsed SQLAlchemy URL as consumed by
create_connect_args: username, password, host, database and the query
parameter mapping. -/
structure SaUrl where
  username : Option (List Char)
  password : Option (List Char)
  host : List Char
  database : Option (List Char)
  query : List (List Char × List Char)

/-- The character class of the region group of the host pattern:
lowercase letters, digits and hyphen. -/
def regionCharOk (c : Char) : Bool :=
  decide (('a' ≤ c ∧ c ≤ 'z') ∨ ('0' ≤ c ∧ c ≤ '9') ∨ c = '-')

/-- If suf is a trailing segment of s, return the rest of s, else none. -/
def stripSuf (suf s : List Char) : Option (List Char) :=
  (stripPre suf.reverse s.reverse).map List.reverse

/-- The anchored host regex of create_connect_args: the host matches exactly
when it decomposes as athena. then a non-empty run of region characters then
.amazonaws.com; the match yields the region group. -/
def athenaRegion (host : List Char) : Option (List Char) :=
  match stripPre "athena.".toList host with
  | none => none
  | some rest =>
    match stripSuf ".amazonaws.com".toList rest with
    | none => none
    | some mid => if mid ≠ [] ∧ mid.all regionCharOk then some mid else none

/-- re.sub of the anchored host pattern with the region as replacement:
the region when the host matches, the host unchanged otherwise. -/
def region_name_of_host (host : List Char) : List Char :=
  match athenaRegion host with
  | some r => r
  | none => host

/-- The schema_name entry of create_connect_args: the database segment when
it is truthy, the literal default otherwise (Python treats None and the
empty string as falsy). -/
def schema_name_of : Option (List Char) → List Char
  | none => "default".toList
  | some d => if d = [] then "default".toList else d

/-- Python dict item assignment over an association list: replace the value
of an existing key in place, or append a new key at the end. -/
def dictSet {V : Type} : List (List Char × V) → List Char → V → List (List Char × V)
  | [], k, v => [(k, v)]
  | (k0, v0) :: rest, k, v =>
    if k0 = k then (k, v) :: rest else (k0, v0) :: dictSet rest k v

/-- Python dict lookup over an association list. -/
def dictGet {V : Type} : List (List Char × V) → List Char → Option V
  | [], _ => none
  | (k0, v0) :: rest, k => if k0 = k then some v0 else dictGet rest k

/-- create_connect_args: the opts dict is built from the four derived keys
and then updated with the query parameters via opts.update(url.query), so
updates are applied after the derived keys.  The source returns [[], opts];
the empty positional argument list is dropped here. -/
def create_connect_args (url : SaUrl) : List (List Char × Option (List Char)) :=
  url.query.foldl (fun d kv => dictSet d kv.1 (some kv.2))
    [("access_key".toList, url.username),
     ("secret_key".toList, url.password),
     ("region_name".toList, some (region_name_of_host url.host)),
     ("schema_name".toList, some (schema_name_of url.database))]

/-- get_foreign_keys of the source: Athena has no foreign keys, the result
is always the empty list, for every connection, table and schema. -/
def get_foreign_keys (γ α : Type) (_connection : γ) (_table_name : List Char)
    (_schema : Option (List Char)) : List α := []

/-- get_pk_constraint of the source: always the empty list. -/
def get_pk_constraint (γ α : Type) (_connection : γ) (_table_name : List Char)
    (_schema : Option (List Char)) : List α := []

/-- get_indexes of the source: always the empty list. -/
def get_indexes (γ α : Type) (_connection : γ) (_table_name : List Char)
    (_schema : Option (List Char)) : List α := []

/-- do_rollback of the source: pass, a no-op returning None. -/
def do_rollback (γ : Type) (_dbapi_connection : γ) : Unit := ()

/-! ### Lemmas about the substring machinery -/

theorem stripPre_eq_some_iff (sep : List Char) :
    ∀ s t : List Char, stripPre sep s = some t ↔ s = sep ++ t := by
  induction sep with
  | nil => intro s t; simp [stripPre]
  | cons p ps ih =>
    intro s t
    cases s with
    | nil => simp [stripPre]
    | cons c cs =>
      by_cases hc : c = p
      · subst hc
        simp [stripPre, ih]
      · simp [stripPre, hc]

theorem splitFirst_eq_append (sep : List Char) :
    ∀ s pre post : List Char, splitFirst sep s = some (pre, post) →
      s = pre ++ sep ++ post := by
  intro s
  induction s with
  | nil => intro pre post h; simp [splitFirst] at h
  | cons c rest ih =>
    intro pre post h
    cases hsp : stripPre sep (c :: rest) with
    | some tail =>
      rw [splitFirst, hsp] at h
      obtain ⟨h1, h2⟩ := Prod.mk.injEq .. ▸ Option.some.inj h
      subst h1; subst h2
      simpa using (stripPre_eq_some_iff sep (c :: rest) tail).mp hsp
    | none =>
      rw [splitFirst, hsp] at h
      rw [Option.map_eq_some'] at h
      obtain ⟨⟨p1, q1⟩, hr, heq⟩ := h
      obtain ⟨h1, h2⟩ := Prod.mk.injEq .. ▸ heq
      subst h1; subst h2
      have := ih p1 q1 hr
      simp [this]

theorem splitFirst_isSome_of_append (sep : List Char) (hsep : sep ≠ []) :
    ∀ p t s : List Char, s = p ++ sep ++ t → (splitFirst sep s).isSome = true := by
  intro p
  induction p with
  | nil =>
    intro t s hs
    cases sep with
    | nil => exact absurd rfl hsep
    | cons a as =>
      subst hs
      have hst : stripPre (a :: as) ((a :: as) ++ t) = some t :=
        (stripPre_eq_some_iff (a :: as) ((a :: as) ++ t) t).mpr rfl
      simp only [List.nil_append, List.cons_append] at hst ⊢
      rw [splitFirst, hst]
      rfl
  | cons c p2 ih =>
    intro t s hs
    subst hs
    simp only [List.cons_append]
    cases hsp : stripPre sep (c :: (p2 ++ sep ++ t)) with
    | some tail => rw [splitFirst, hsp]; rfl
    | none =>
      rw [splitFirst, hsp]
      have := ih t (p2 ++ sep ++ t) rfl
      cases hr : splitFirst sep (p2 ++ sep ++ t) with
      | none => rw [hr] at this; simp at this
      | some pq => simp

theorem splitFirst_minimal (sep : List Char) :
    ∀ s pre post p t : List Char, splitFirst sep s = some (pre, post) →
      s = p ++ sep ++ t → pre.length ≤ p.length := by
  intro s
  induction s with
  | nil => intro pre post p t h _; simp [splitFirst] at h
  | cons c rest ih =>
    intro pre post p t h hs
    cases hsp : stripPre sep (c :: rest) with
    | some tail =>
      rw [splitFirst, hsp] at h
      obtain ⟨h1, _⟩ := Prod.mk.injEq .. ▸ Option.some.inj h
      subst h1
      exact Nat.zero_le _
    | none =>
      rw [splitFirst, hsp] at h
      rw [Option.map_eq_some'] at h
      obtain ⟨⟨p1, q1⟩, hr, heq⟩ := h
      obtain ⟨h1, _⟩ := Prod.mk.injEq .. ▸ heq
      subst h1
      cases p with
      | nil =>
        exfalso
        have : stripPre sep (c :: rest) = some t := by
          rw [stripPre_eq_some_iff]
          simpa using hs
        rw [this] at hsp
        exact Option.noConfusion hsp
      | cons c2 p2 =>
        have hcr : c = c2 ∧ rest = p2 ++ sep ++ t := by
          have := hs
          simp only [List.cons_append] at this
          exact ⟨List.head_eq_of_cons_eq this, List.tail_eq_of_cons_eq this⟩
        have := ih p1 q1 p2 t hr hcr.2
        simpa using Nat.succ_le_succ this

theorem pySplitGo_ne_nil (sep : List Char) :
    ∀ (fuel : Nat) (s acc : List Char), pySplitGo sep fuel s acc ≠ [] := by
  intro fuel
  induction fuel with
  | zero => intro s acc; simp [pySplitGo]
  | succ fuel ih =>
    intro s acc
    cases s with
    | nil => simp [pySplitGo]
    | cons c rest =>
      cases hsp : stripPre sep (c :: rest) with
      | some tail => simp [pySplitGo, hsp]
      | none =>
        rw [pySplitGo, hsp]
        exact ih rest (c :: acc)

theorem getLastD_irrel {α : Type} (l : List α) (d d2 : α) (h : l ≠ []) :
    l.getLastD d = l.getLastD d2 := by
  cases l with
  | nil => exact absurd rfl h
  | cons a l2 => rw [List.getLastD_cons, List.getLastD_cons]

theorem pySplitGo_headD (sep : List Char) :
    ∀ (fuel : Nat) (s acc : List Char), s.length ≤ fuel →
      (pySplitGo sep fuel s acc).headD [] =
        acc.reverse ++ (match splitFirst sep s with
          | some pq => pq.1
          | none => s) := by
  intro fuel
  induction fuel with
  | zero =>
    intro s acc hle
    have hs : s = [] := List.length_eq_zero.mp (Nat.le_zero.mp hle)
    subst hs
    simp [pySplitGo, splitFirst]
  | succ fuel ih =>
    intro s acc hle
    cases s with
    | nil => simp [pySplitGo, splitFirst]
    | cons c rest =>
      have hlen : rest.length ≤ fuel := by
        simp only [List.length_cons] at hle
        omega
      cases hsp : stripPre sep (c :: rest) with
      | some tail =>
        rw [pySplitGo, hsp, splitFirst, hsp]
        simp
      | none =>
        rw [pySplitGo, hsp, splitFirst, hsp]
        rw [ih rest (c :: acc) hlen]
        cases hr : splitFirst sep rest with
        | none => simp [hr]
        | some pq => simp [hr]

theorem pySplitGo_getLastD_none (sep : List Char) :
    ∀ (fuel : Nat) (s acc : List Char), s.length ≤ fuel →
      splitFirst sep s = none →
      (pySplitGo sep fuel s acc).getLastD [] = acc.reverse ++ s := by
  intro fuel
  induction fuel with
  | zero =>
    intro s acc hle _
    have hs : s = [] := List.length_eq_zero.mp (Nat.le_zero.mp hle)
    subst hs
    simp [pySplitGo]
  | succ fuel ih =>
    intro s acc hle hn
    cases s with
    | nil => simp [pySplitGo]
    | cons c rest =>
      have hlen : rest.length ≤ fuel := by
        simp only [List.length_cons] at hle
        omega
      cases hsp : stripPre sep (c :: rest) with
      | some tail =>
        exfalso
        rw [splitFirst, hsp] at hn
        exact Option.noConfusion hn
      | none =>
        have hrn : splitFirst sep rest = none := by
          rw [splitFirst, hsp] at hn
          exact Option.map_eq_none'.mp hn
        rw [pySplitGo, hsp]
        rw [ih rest (c :: acc) hlen hrn]
        simp

theorem pySplitGo_getLastD_some (sep : List Char) (hsep : sep ≠ []) :
    ∀ (fuel : Nat) (s acc pre post : List Char), s.length ≤ fuel →
      splitFirst sep s = some (pre, post) →
      ∃ u, s = u ++ sep ++ (pySplitGo sep fuel s acc).getLastD [] ∧
        splitFirst sep ((pySplitGo sep fuel s acc).getLastD []) = none := by
  intro fuel
  induction fuel with
  | zero =>
    intro s acc pre post hle h
    have hs : s = [] := List.length_eq_zero.mp (Nat.le_zero.mp hle)
    subst hs
    simp [splitFirst] at h
  | succ fuel ih =>
    intro s acc pre post hle h
    cases s with
    | nil => simp [splitFirst] at h
    | cons c rest =>
      cases hsp : stripPre sep (c :: rest) with
      | some tail =>
        have hst : (c :: rest) = sep ++ tail :=
          (stripPre_eq_some_iff sep (c :: rest) tail).mp hsp
        have htl : tail.length ≤ fuel := by
          have hlc := congrArg List.length hst
          simp only [List.length_cons, List.length_append] at hlc
          have hsl : 1 ≤ sep.length := by
            cases sep with
            | nil => exact absurd rfl hsep
            | cons a as => simp
          simp only [List.length_cons] at hle
          omega
        rw [pySplitGo, hsp]
        rw [List.getLastD_cons]
        rw [getLastD_irrel (pySplitGo sep fuel tail []) acc.reverse []
          (pySplitGo_ne_nil sep fuel tail [])]
        cases hr : splitFirst sep tail with
        | none =>
          have hL : (pySplitGo sep fuel tail []).getLastD [] = tail := by
            simpa using pySplitGo_getLastD_none sep fuel tail [] htl hr
          rw [hL]
          exact ⟨[], by simpa using hst, hr⟩
        | some pq =>
          obtain ⟨u, hu, hnone⟩ := ih tail [] pq.1 pq.2 htl (by rw [hr])
          refine ⟨sep ++ u, ?_, hnone⟩
          rw [hst]
          conv_lhs => rw [hu]
          simp
      | none =>
        have hmap : (splitFirst sep rest).map (fun pq => (c :: pq.1, pq.2)) =
            some (pre, post) := by
          rw [splitFirst, hsp] at h
          exact h
        rw [Option.map_eq_some'] at hmap
        obtain ⟨⟨p1, q1⟩, hr, _⟩ := hmap
        have hlen : rest.length ≤ fuel := by
          simp only [List.length_cons] at hle
          omega
        rw [pySplitGo, hsp]
        obtain ⟨u, hu, hnone⟩ := ih rest (c :: acc) p1 q1 hlen hr
        refine ⟨c :: u, ?_, hnone⟩
        rw [List.cons_append, List.cons_append]
        rw [← hu]

theorem commentSep_ne_nil : commentSep ≠ [] := by decide

theorem commentedRow_fst (row pre post : List Char)
    (h : splitFirst commentSep row = some (pre, post)) :
    (commentedRow row).1 = pre := by
  have hS : hasSub commentSep row = true := by rw [hasSub, h]; rfl
  simp only [commentedRow]
  rw [if_pos hS]
  show (pySplitGo commentSep row.length row []).headD [] = pre
  rw [pySplitGo_headD commentSep row.length row [] le_rfl]
  simp [h]

theorem commentedRow_snd (row pre post : List Char)
    (h : splitFirst commentSep row = some (pre, post)) :
    ∃ s, (commentedRow row).2 = some s ∧
      (∃ u, row = u ++ commentSep ++ s) ∧ hasSub commentSep s = false := by
  have hS : hasSub commentSep row = true := by rw [hasSub, h]; rfl
  obtain ⟨u, hu, hnone⟩ :=
    pySplitGo_getLastD_some commentSep commentSep_ne_nil row.length row [] pre post le_rfl h
  refine ⟨(pySplit commentSep row).getLastD [], ?_, ⟨u, ?_⟩, ?_⟩
  · simp only [commentedRow]
    rw [if_pos hS]
  · exact hu
  · show (splitFirst commentSep ((pySplitGo commentSep row.length row []).getLastD [])).isSome
      = false
    rw [hnone]
    rfl

theorem mem_getColumnsGo (lines : List (List Char)) :
    ∀ (n : Nat) (r : ColumnRecord), r ∈ getColumnsGo lines n →
      ∃ raw, raw ∈ lines ∧
        ∃ nm ty, parseShowCreateLine raw = some (nm, ty, r.comment) := by
  induction lines with
  | nil => intro n r h; simp [getColumnsGo] at h
  | cons raw rest ih =>
    intro n r h
    cases hp : parseShowCreateLine raw with
    | none =>
      simp only [getColumnsGo, hp] at h
      obtain ⟨raw2, hmem, hrest⟩ := ih n r h
      exact ⟨raw2, List.mem_cons_of_mem raw hmem, hrest⟩
    | some ntc =>
      obtain ⟨nm, ty, cm⟩ := ntc
      simp only [getColumnsGo, hp] at h
      rcases List.mem_cons.mp h with heq | hmem
      · subst heq
        exact ⟨raw, List.mem_cons_self raw rest, nm, ty, hp⟩
      · obtain ⟨raw2, hmem2, hrest⟩ := ih (n + 1) r hmem
        exact ⟨raw2, List.mem_cons_of_mem raw hmem2, hrest⟩

theorem parse_comment_provenance (raw nm s : List Char) (ty : TypeDescriptor)
    (h : parseShowCreateLine raw = some (nm, ty, some s)) :
    (∃ u, processedRow raw = u ++ commentSep ++ s) ∧ hasSub commentSep s = false := by
  rw [parseShowCreateLine] at h
  cases hg : parsedGroups raw with
  | none => rw [hg] at h; exact Option.noConfusion h
  | some g =>
    obtain ⟨g1, g2⟩ := g
    rw [hg] at h
    simp only [Option.some.injEq, Prod.mk.injEq] at h
    have hcm : (commentedRow (processedRow raw)).2 = some s := h.2.2
    cases hsp : splitFirst commentSep (processedRow raw) with
    | none =>
      exfalso
      have hS : hasSub commentSep (processedRow raw) = false := by
        rw [hasSub, hsp]; rfl
      rw [commentedRow, if_neg (by rw [hS]; exact Bool.false_ne_true)] at hcm
      exact Option.noConfusion hcm
    | some pq =>
      obtain ⟨s2, hs2, hdecomp, hfree⟩ :=
        commentedRow_snd (processedRow raw) pq.1 pq.2 (by rw [hsp])
      rw [hcm] at hs2
      have hss : s = s2 := Option.some.inj hs2
      subst hss
      exact ⟨hdecomp, hfree⟩

theorem pyUpperChar_not_lower (c : Char) : isLowerAscii (pyUpperChar c) = false := by
  unfold pyUpperChar
  split
  · rename_i h
    obtain ⟨h1, h2⟩ := h
    unfold isLowerAscii
    generalize hg : c.toNat = n at h1 h2 ⊢
    interval_cases n <;> decide
  · rename_i h
    exact decide_eq_false h

theorem mem_pyStrip (c : Char) (s : List Char) (h : c ∈ pyStrip s) : c ∈ s := by
  unfold pyStrip at h
  rw [List.mem_reverse] at h
  have h2 := (List.dropWhile_sublist isSpaceChar).subset h
  rw [List.mem_reverse] at h2
  exact (List.dropWhile_sublist isSpaceChar).subset h2

theorem mem_stripTrailPunct (c : Char) (s : List Char) (h : c ∈ stripTrailPunct s) : c ∈ s := by
  unfold stripTrailPunct at h
  split at h
  · split at h
    · exact (List.dropLast_sublist s).subset h
    · exact h
  · exact h

theorem mem_processedRow_not_lower (raw : List Char) (c : Char)
    (h : c ∈ processedRow raw) : isLowerAscii c = false := by
  unfold processedRow at h
  have h2 := mem_pyStrip c (raw.map pyUpperChar) (mem_stripTrailPunct c _ h)
  rw [List.mem_map] at h2
  obtain ⟨c0, _, hc0⟩ := h2
  rw [← hc0]
  exact pyUpperChar_not_lower c0

/-! ### Lemmas about association-list dictionaries -/

theorem dictGetD_of_mem {V : Type} (l : List (List Char × V)) (k : List Char) (v d : V)
    (hnd : (l.map Prod.fst).Nodup) (h : (k, v) ∈ l) : dictGetD l k d = v := by
  induction l with
  | nil => simp at h
  | cons kv rest ih =>
    obtain ⟨k0, v0⟩ := kv
    simp only [List.map_cons, List.nodup_cons] at hnd
    rcases List.mem_cons.mp h with heq | hmem
    · obtain ⟨h1, h2⟩ := Prod.mk.injEq .. ▸ heq
      subst h1; subst h2
      simp [dictGetD]
    · have hne : k0 ≠ k := by
        intro he
        subst he
        exact hnd.1 (List.mem_map_of_mem Prod.fst hmem)
      simp only [dictGetD, if_neg hne]
      exact ih hnd.2 hmem

theorem dictGetD_of_not_key {V : Type} (l : List (List Char × V)) (k : List Char) (d : V)
    (h : k ∉ l.map Prod.fst) : dictGetD l k d = d := by
  induction l with
  | nil => rfl
  | cons kv rest ih =>
    obtain ⟨k0, v0⟩ := kv
    simp only [List.map_cons, List.mem_cons] at h
    push_neg at h
    have hne : k0 ≠ k := fun he => h.1 (Eq.symm he)
    simp only [dictGetD, if_neg hne]
    exact ih h.2

theorem dictGet_cons_self {V : Type} (k : List Char) (v0 : V)
    (rest : List (List Char × V)) : dictGet ((k, v0) :: rest) k = some v0 := by
  simp [dictGet]

theorem dictGet_cons_ne {V : Type} (k0 k : List Char) (v0 : V)
    (rest : List (List Char × V)) (h : k0 ≠ k) :
    dictGet ((k0, v0) :: rest) k = dictGet rest k := by
  simp [dictGet, h]

theorem dictGet_dictSet_self {V : Type} (d : List (List Char × V)) (k : List Char) (v : V) :
    dictGet (dictSet d k v) k = some v := by
  induction d with
  | nil => simp [dictSet, dictGet]
  | cons kv rest ih =>
    obtain ⟨k0, v0⟩ := kv
    by_cases h : k0 = k
    · subst h
      simp [dictSet, dictGet]
    · simp [dictSet, dictGet, h, ih]

theorem dictGet_dictSet_ne {V : Type} (d : List (List Char × V)) (k j : List Char) (v : V)
    (h : k ≠ j) : dictGet (dictSet d k v) j = dictGet d j := by
  induction d with
  | nil => simp [dictSet, dictGet, h]
  | cons kv rest ih =>
    obtain ⟨k0, v0⟩ := kv
    by_cases h0 : k0 = k
    · subst h0
      simp [dictSet, dictGet, h]
    · by_cases h1 : k0 = j
      · subst h1
        simp [dictSet, dictGet, h0]
      · simp [dictSet, dictGet, h0, h1, ih]

theorem dictGet_foldl_not_key (q : List (List Char × List Char))
    (d : List (List Char × Option (List Char))) (k : List Char)
    (h : k ∉ q.map Prod.fst) :
    dictGet (q.foldl (fun d2 kv => dictSet d2 kv.1 (some kv.2)) d) k = dictGet d k := by
  induction q generalizing d with
  | nil => rfl
  | cons kv rest ih =>
    obtain ⟨k0, v0⟩ := kv
    simp only [List.map_cons, List.mem_cons] at h
    push_neg at h
    simp only [List.foldl_cons]
    rw [ih (dictSet d k0 (some v0)) h.2]
    exact dictGet_dictSet_ne d k0 k (some v0) (fun he => h.1 he.symm)

theorem dictGet_foldl_mem (q : List (List Char × List Char))
    (d : List (List Char × Option (List Char))) (k v : List Char)
    (hnd : (q.map Prod.fst).Nodup) (hmem : (k, v) ∈ q) :
    dictGet (q.foldl (fun d2 kv => dictSet d2 kv.1 (some kv.2)) d) k = some (some v) := by
  induction q generalizing d with
  | nil => simp at hmem
  | cons kv rest ih =>
    obtain ⟨k0, v0⟩ := kv
    simp only [List.map_cons, List.nodup_cons] at hnd
    simp only [List.foldl_cons]
    rcases List.mem_cons.mp hmem with heq | hmem2
    · obtain ⟨h1, h2⟩ := Prod.mk.injEq .. ▸ heq
      subst h1; subst h2
      rw [dictGet_foldl_not_key rest (dictSet d k (some v)) k hnd.1]
      exact dictGet_dictSet_self d k (some v)
    · exact ih (dictSet d k0 (some v0)) hnd.2 hmem2

/-! ### The ordinal counter of get_columns -/

theorem getColumnsGo_map_ordinal (lines : List (List Char)) :
    ∀ n : Nat, (getColumnsGo lines n).map (fun r => r.ordinal_position) =
      List.range' (n + 1) (lines.countP (fun l => (parseShowCreateLine l).isSome)) := by
  induction lines with
  | nil => intro n; simp [getColumnsGo]
  | cons raw rest ih =>
    intro n
    cases hp : parseShowCreateLine raw with
    | none =>
      simp only [getColumnsGo, hp]
      rw [ih n, List.countP_cons]
      simp [hp]
    | some ntc =>
      obtain ⟨nm, ty, cm⟩ := ntc
      simp only [getColumnsGo, hp, List.map_cons]
      rw [ih (n + 1), List.countP_cons]
      simp only [hp, Option.isSome_some, if_pos]
      rw [List.range'_succ]

/-! ### The claims -/

/-- Claim C1, counterexample.  On the line with backticked user_id, type
BIGINT and a quoted comment, the raw type token is not BIGINT (the greedy
regex keeps the trailing space), the mapped type is not the 64-bit integer
descriptor, and the comment is not the claimed text without its leading
space. -/
theorem bigint_comment_line_cex :
    (parsedGroups "`user_id` BIGINT COMMENT \x27primary identifier\x27,".toList).map
        Prod.snd ≠ some "BIGINT".toList ∧
    (parseShowCreateLine "`user_id` BIGINT COMMENT \x27primary identifier\x27,".toList).map
        (fun t => t.2.1) ≠ some TypeDescriptor.BIGINT ∧
    (parseShowCreateLine "`user_id` BIGINT COMMENT \x27primary identifier\x27,".toList).map
        (fun t => t.2.2) ≠ some (some "\x27PRIMARY IDENTIFIER\x27".toList) := by
  refine ⟨?_, ?_, ?_⟩ <;> decide

/-- Claim C1, amended.  The line parses to name user_id and uppercased
comment with its leading space kept, but the captured raw type token is
BIGINT followed by one space, so the table lookup misses and the mapped
type is the untyped sentinel NULLTYPE. -/
theorem bigint_comment_line_parse :
    parsedGroups "`user_id` BIGINT COMMENT \x27primary identifier\x27,".toList =
      some ("USER_ID".toList, "BIGINT ".toList) ∧
    get_columns ["`user_id` BIGINT COMMENT \x27primary identifier\x27,".toList] =
      [⟨"user_id".toList, TypeDescriptor.NULLTYPE, 1,
        some " \x27PRIMARY IDENTIFIER\x27".toList, none, none⟩] := by
  refine ⟨?_, ?_⟩ <;> decide

/-- Claim C2, counterexample.  The line with backticked tags and type
ARRAY of STRING maps to the untyped sentinel NULLTYPE, not to the opaque
string descriptor STRINGTYPE, because the lookup uses the whole captured
token. -/
theorem array_line_cex :
    (parseShowCreateLine "`tags` ARRAY<STRING>".toList).map (fun t => t.2.1) ≠
      some TypeDescriptor.STRINGTYPE ∧
    (parseShowCreateLine "`tags` ARRAY<STRING>".toList).map (fun t => t.2.1) =
      some TypeDescriptor.NULLTYPE := by
  refine ⟨?_, ?_⟩ <;> decide

/-- Claim C2, amended.  The per-line parse extracts the raw type token
ARRAY of STRING, which begins with ARRAY, but the exact-match table lookup
returns the untyped sentinel NULLTYPE rather than STRINGTYPE. -/
theorem array_line_parse :
    parsedGroups "`tags` ARRAY<STRING>".toList =
      some ("TAGS".toList, "ARRAY<STRING>".toList) ∧
    get_columns ["`tags` ARRAY<STRING>".toList] =
      [⟨"tags".toList, TypeDescriptor.NULLTYPE, 1, none, none, none⟩] := by
  refine ⟨?_, ?_⟩ <;> decide

/-- Claim C3, counterexample.  On a processed line in which COMMENT occurs
twice, the stored comment is the text after the last occurrence, not the
text after the first occurrence as the claim states. -/
theorem comment_split_first_occurrence_cex :
    parseShowCreateLine "`a` int COMMENT \x27b COMMENT c\x27,".toList =
      some ("a".toList, TypeDescriptor.NULLTYPE, some " C\x27".toList) ∧
    some " C\x27".toList ≠ some " \x27B COMMENT C\x27".toList := by
  refine ⟨?_, ?_⟩ <;> decide

/-- Claim C3, amended.  When the substring COMMENT occurs in the processed
row, the column-definition remainder is everything before the first
occurrence (the prefix of minimal length over all decompositions), while
the stored comment text is everything after the last occurrence: the row
decomposes around it and no further occurrence lies inside it. -/
theorem comment_split_boundaries (row pre post : List Char)
    (h : splitFirst commentSep row = some (pre, post)) :
    (commentedRow row).1 = pre ∧
    (∀ p t, row = p ++ commentSep ++ t → pre.length ≤ p.length) ∧
    ∃ s, (commentedRow row).2 = some s ∧ (∃ u, row = u ++ commentSep ++ s) ∧
      hasSub commentSep s = false := by
  refine ⟨commentedRow_fst row pre post h, ?_, ?_⟩
  · intro p t hp
    exact splitFirst_minimal commentSep row pre post p t h hp
  · exact commentedRow_snd row pre post h

/-- Witness for C3 on a row with two COMMENT occurrences. -/
theorem comment_split_boundaries_witness :
    (commentedRow "A COMMENT B COMMENT C".toList).1 = "A ".toList ∧
    ∃ s, (commentedRow "A COMMENT B COMMENT C".toList).2 = some s ∧
      (∃ u, "A COMMENT B COMMENT C".toList = u ++ commentSep ++ s) ∧
      hasSub commentSep s = false :=
  ⟨(comment_split_boundaries "A COMMENT B COMMENT C".toList "A ".toList
      " B COMMENT C".toList (by decide)).1,
   (comment_split_boundaries "A COMMENT B COMMENT C".toList "A ".toList
      " B COMMENT C".toList (by decide)).2.2⟩

/-- Claim C4.  For any sequence of fetched lines, the ordinal_position
fields of the returned records are exactly 1..k in encounter order, where
k is the number of lines whose per-line parse succeeds; skipped lines do
not affect the numbering. -/
theorem get_columns_ordinals (lines : List (List Char)) :
    (get_columns lines).map (fun r => r.ordinal_position) =
      List.range' 1 (lines.countP (fun l => (parseShowCreateLine l).isSome)) ∧
    (get_columns lines).length =
      lines.countP (fun l => (parseShowCreateLine l).isSome) := by
  have h1 := getColumnsGo_map_ordinal lines 0
  refine ⟨h1, ?_⟩
  have h2 := congrArg List.length h1
  simpa using h2

/-- Claim C5.  A host of the exact form athena.(region).amazonaws.com with
a non-empty region over lowercase letters, digits and hyphen yields the
bare region; any host the anchored pattern does not match passes through
unchanged; and with no query parameters create_connect_args carries exactly
this value under region_name.  The extraction is total, so no exception is
possible. -/
theorem region_extraction (r host : List Char) (url : SaUrl) :
    (r ≠ [] → r.all regionCharOk = true →
      region_name_of_host ("athena.".toList ++ (r ++ ".amazonaws.com".toList)) = r) ∧
    (athenaRegion host = none → region_name_of_host host = host) ∧
    (url.query = [] →
      dictGet (create_connect_args url) "region_name".toList =
        some (some (region_name_of_host url.host))) := by
  refine ⟨?_, ?_, ?_⟩
  · intro hne hall
    have h1 : stripPre "athena.".toList
        ("athena.".toList ++ (r ++ ".amazonaws.com".toList)) =
        some (r ++ ".amazonaws.com".toList) :=
      (stripPre_eq_some_iff "athena.".toList _ _).mpr rfl
    have h3 : stripPre ".amazonaws.com".toList.reverse
        ((".amazonaws.com".toList).reverse ++ r.reverse) = some r.reverse :=
      (stripPre_eq_some_iff _ _ _).mpr rfl
    have h2 : stripSuf ".amazonaws.com".toList (r ++ ".amazonaws.com".toList) = some r := by
      unfold stripSuf
      rw [List.reverse_append, h3]
      simp
    have hreg : athenaRegion ("athena.".toList ++ (r ++ ".amazonaws.com".toList)) =
        some r := by
      unfold athenaRegion
      simp only [h1, h2]
      rw [if_pos ⟨hne, hall⟩]
    unfold region_name_of_host
    rw [hreg]
  · intro h
    unfold region_name_of_host
    rw [h]
  · intro hq
    unfold create_connect_args
    rw [hq]
    simp only [List.foldl_nil]
    rw [dictGet_cons_ne _ _ _ _ (by decide), dictGet_cons_ne _ _ _ _ (by decide),
      dictGet_cons_self]

/-- Witness for C5: a matching host, a non-matching host, and the opts
entry of a concrete URL. -/
theorem region_extraction_witness :
    region_name_of_host ("athena.".toList ++ ("us-east-1".toList ++
      ".amazonaws.com".toList)) = "us-east-1".toList ∧
    region_name_of_host "example.com".toList = "example.com".toList ∧
    dictGet (create_connect_args
        ⟨none, none, "athena.eu-west-2.amazonaws.com".toList, none, []⟩)
      "region_name".toList =
      some (some (region_name_of_host "athena.eu-west-2.amazonaws.com".toList)) :=
  ⟨(region_extraction "us-east-1".toList [] ⟨none, none, [], none, []⟩).1
      (by decide) (by decide),
   (region_extraction [] "example.com".toList ⟨none, none, [], none, []⟩).2.1 (by decide),
   (region_extraction [] []
      ⟨none, none, "athena.eu-west-2.amazonaws.com".toList, none, []⟩).2.2 rfl⟩

/-- Claim C6.  The lookup used by get_columns returns the recorded
descriptor for every token present in the table and the untyped sentinel
NULLTYPE for every absent token; it is a total function, so it never
raises. -/
theorem type_mappings_resolve (k : List Char) (d : TypeDescriptor) :
    ((k, d) ∈ _TYPE_MAPPINGS → dictGetD _TYPE_MAPPINGS k TypeDescriptor.NULLTYPE = d) ∧
    (k ∉ _TYPE_MAPPINGS.map Prod.fst →
      dictGetD _TYPE_MAPPINGS k TypeDescriptor.NULLTYPE = TypeDescriptor.NULLTYPE) := by
  constructor
  · intro h
    exact dictGetD_of_mem _TYPE_MAPPINGS k d TypeDescriptor.NULLTYPE (by decide) h
  · intro h
    exact dictGetD_of_not_key _TYPE_MAPPINGS k TypeDescriptor.NULLTYPE h

/-- Witness for C6: a present token and an absent token. -/
theorem type_mappings_resolve_witness :
    dictGetD _TYPE_MAPPINGS "BIGINT".toList TypeDescriptor.NULLTYPE =
      TypeDescriptor.BIGINT ∧
    dictGetD _TYPE_MAPPINGS "FOO".toList TypeDescriptor.NULLTYPE =
      TypeDescriptor.NULLTYPE :=
  ⟨(type_mappings_resolve "BIGINT".toList TypeDescriptor.BIGINT).1 (by decide),
   (type_mappings_resolve "FOO".toList TypeDescriptor.NULLTYPE).2 (by decide)⟩

/-- Claim C7.  An absent or empty database segment yields the literal
default; a non-empty segment passes through; and with no query parameters
create_connect_args carries exactly this value under schema_name. -/
theorem schema_name_default (d : List Char) (url : SaUrl) :
    schema_name_of none = "default".toList ∧
    schema_name_of (some []) = "default".toList ∧
    (d ≠ [] → schema_name_of (some d) = d) ∧
    (url.query = [] →
      dictGet (create_connect_args url) "schema_name".toList =
        some (some (schema_name_of url.database))) := by
  refine ⟨rfl, by decide, ?_, ?_⟩
  · intro h
    simp [schema_name_of, h]
  · intro hq
    unfold create_connect_args
    rw [hq]
    simp only [List.foldl_nil]
    rw [dictGet_cons_ne _ _ _ _ (by decide), dictGet_cons_ne _ _ _ _ (by decide),
      dictGet_cons_ne _ _ _ _ (by decide), dictGet_cons_self]

/-- Witness for C7: a non-empty database segment. -/
theorem schema_name_default_witness :
    schema_name_of (some "sampledb".toList) = "sampledb".toList ∧
    dictGet (create_connect_args ⟨none, none, [], some "sampledb".toList, []⟩)
      "schema_name".toList = some (some (schema_name_of (some "sampledb".toList))) :=
  ⟨(schema_name_default "sampledb".toList ⟨none, none, [], none, []⟩).2.2.1 (by decide),
   (schema_name_default "sampledb".toList
      ⟨none, none, [], some "sampledb".toList, []⟩).2.2.2 rfl⟩

/-- Claim C8.  get_foreign_keys, get_pk_constraint and get_indexes return
the empty sequence for every connection, table name and schema, and
do_rollback is a no-op returning the unit value for every connection; all
four are total, so none can raise. -/
theorem capability_absent_operations (γ α : Type) (conn : γ) (t : List Char)
    (s : Option (List Char)) :
    get_foreign_keys γ α conn t s = [] ∧ get_pk_constraint γ α conn t s = [] ∧
    get_indexes γ α conn t s = [] ∧ do_rollback γ conn = () :=
  ⟨rfl, rfl, rfl, rfl⟩

/-- Claim C9.  The query parameters are merged after the four derived
entries, so any query parameter, in particular one named schema_name or
region_name, overrides the derived value in the returned opts dict. -/
theorem query_params_override (url : SaUrl) (k v : List Char)
    (hnd : (url.query.map Prod.fst).Nodup) (hmem : (k, v) ∈ url.query) :
    dictGet (create_connect_args url) k = some (some v) :=
  dictGet_foldl_mem url.query _ k v hnd hmem

/-- Witness for C9: a schema_name query parameter overrides the database
segment of the URL. -/
theorem query_params_override_witness :
    dictGet (create_connect_args ⟨none, none, [], some "db".toList,
        [("schema_name".toList, "override".toList)]⟩)
      "schema_name".toList = some (some "override".toList) :=
  query_params_override
    ⟨none, none, [], some "db".toList, [("schema_name".toList, "override".toList)]⟩
    "schema_name".toList "override".toList (by decide) (by decide)

/-- Claim C10.  Every comment stored by get_columns is a verbatim suffix of
the uppercased, stripped, punctuation-trimmed line, taken after an
occurrence of COMMENT with its leading whitespace preserved, and therefore
contains no ASCII lowercase letter: the original letter case of DDL
comments is never preserved. -/
theorem comment_uppercased_suffix (lines : List (List Char)) (r : ColumnRecord)
    (s : List Char) (hr : r ∈ get_columns lines) (hc : r.comment = some s) :
    ∃ raw, raw ∈ lines ∧ (∃ u, processedRow raw = u ++ commentSep ++ s) ∧
      ∀ c, c ∈ s → isLowerAscii c = false := by
  obtain ⟨raw, hmem, nm, ty, hp⟩ := mem_getColumnsGo lines 0 r hr
  rw [hc] at hp
  obtain ⟨⟨u, hu⟩, _⟩ := parse_comment_provenance raw nm s ty hp
  refine ⟨raw, hmem, ⟨u, hu⟩, ?_⟩
  intro c hcs
  apply mem_processedRow_not_lower raw
  rw [hu]
  simp [hcs]

/-- Witness for C10 at a concrete line with a lowercase comment. -/
theorem comment_uppercased_suffix_witness :
    ∃ raw, raw ∈ ["`a` int COMMENT \x27some text\x27".toList] ∧
      (∃ u, processedRow raw = u ++ commentSep ++ " \x27SOME TEXT\x27".toList) ∧
      ∀ c, c ∈ " \x27SOME TEXT\x27".toList → isLowerAscii c = false :=
  comment_uppercased_suffix ["`a` int COMMENT \x27some text\x27".toList]
    ⟨"a".toList, TypeDescriptor.NULLTYPE, 1, some " \x27SOME TEXT\x27".toList, none, none⟩
    " \x27SOME TEXT\x27".toList (by decide) (by decide)
